import Mathlib

/-!
Verification of the crunchy Intelligent Peer Sharing (IPS) core.

Shallow embedding conventions:
* `f64` values are modelled as rationals (`ℚ`); the claims under scrutiny never
  depend on floating-point rounding, only on the exact arithmetic the code spells out.
* `SocketAddr` is modelled as an opaque identifier (`Nat`).
* `Vec` is `List`; `HashMap` / `HashSet` are association lists / pair lists whose only
  observed operations are lookup and membership, which is all the source uses.
* Rust slice sorts are stable; they are modelled with `List.insertionSort`, which is
  also stable, and a stable sort's output is uniquely determined by the key order.
* Panicking lookups (`unwrap`, `expect`, indexing) are modelled totally with defaults;
  theorems carry the well-formedness hypotheses under which the source cannot panic.
-/

namespace Crunchy

section

set_option allowUnsafeReducibility true

attribute [local semireducible] Rat.add Rat.mul Rat.sub Rat.inv

/-- Node (src/nodes.rs): address (opaque id), betweenness / closeness centrality,
adjacency by indices into the owning vector, optional geolocation coordinates.
The `network_type` tag is omitted: filtering by network type happens before the
phases treated here and no claim mentions it.  The two optional layers of the
source (`geolocation` and its inner `coordinates`) are flattened into one
option, since both `None` cases behave identically (no location contribution). -/
structure Node where
  addr : Nat
  betweenness : ℚ
  closeness : ℚ
  connections : List Nat
  geolocation : Option (ℚ × ℚ)
  deriving Repr, DecidableEq, Inhabited

/-- Node constructor shorthand for the concrete test states. -/
def mkNode (a : Nat) (b : ℚ) (conns : List Nat) : Node :=
  { addr := a, betweenness := b, closeness := 0, connections := conns, geolocation := none }

/-- NormalizationFactors (src/normalization.rs lines 1-9): min and max of a factor series. -/
structure NormalizationFactors where
  min : ℚ
  max : ℚ
  deriving Repr, DecidableEq, Inhabited

/-- scale (src/normalization.rs lines 33-39): linear map of value to the unit range,
returning 0 on a degenerate (min = max) range. -/
def NormalizationFactors.scale (f : NormalizationFactors) (value : ℚ) : ℚ :=
  if f.min = f.max then 0 else (value - f.min) / (f.max - f.min)

/-- determine (src/normalization.rs lines 13-30): min and max of a series by reduction.
The source unwraps and panics on an empty series; that case is modelled as `none`. -/
def NormalizationFactors.determine (list : List ℚ) : Option NormalizationFactors :=
  match list with
  | [] => none
  | x :: xs =>
    some { min := xs.foldl (fun a b => if b < a then b else a) x,
           max := xs.foldl (fun a b => if a < b then b else a) x }

/-- Ascending stable sort of rationals, modelling `sort_by(partial_cmp)` on a `Vec<f64>`. -/
def sortAsc (l : List ℚ) : List ℚ := l.insertionSort (fun a b => a ≤ b)

/-- median (src/ips/statistics.rs lines 325-342): sort ascending, take the middle
element (odd length) or the mean of the two central elements (even length);
`None` on an empty series. -/
def median (list : List ℚ) : Option ℚ :=
  if list = [] then none
  else
    let sorted := sortAsc list
    let mid := list.length / 2
    if list.length % 2 = 0 then some ((sorted.getD (mid - 1) 0 + sorted.getD mid 0) / 2)
    else some (sorted.getD mid 0)

/-- degree_centrality_avg (src/ips/statistics.rs lines 307-313): mean of the degree map
values, 0 on an empty map. -/
def degree_centrality_avg (degrees : List (Nat × Nat)) : ℚ :=
  if degrees = [] then 0
  else ((degrees.foldl (fun acc p => acc + p.2) 0 : Nat) : ℚ) / (degrees.length : ℚ)

/-- The bridge threshold of find_bridges (src/ips/graph_utils.rs lines 38-43): the median
of the sorted betweenness series times the configured adjustment.  The source sorts the
series before calling `median` (which sorts again); both sorts are kept. -/
def bridgeT (nodes : List Node) (threshold_adjustment : ℚ) : ℚ :=
  (median (sortAsc (nodes.map (fun n => n.betweenness)))).getD 0 * threshold_adjustment

/-- find_bridges (src/ips/graph_utils.rs lines 30-73).  The nested for loops with
`continue` guards are rendered as flatMaps over the index range; the HashMap of
HashSets is rendered as the list of directed pairs it comes to contain, membership
being the only operation the callers perform on it.  Both orientations of every
detected edge are recorded, as in the source. -/
def find_bridges (nodes : List Node) (threshold_adjustment : ℚ) : List (Nat × Nat) :=
  if nodes.length < 2 then []
  else
    (List.range nodes.length).flatMap (fun node_idx =>
      if (nodes.getD node_idx default).betweenness < bridgeT nodes threshold_adjustment then []
      else (nodes.getD node_idx default).connections.flatMap (fun peer_idx =>
        if (nodes.getD peer_idx default).betweenness ≤ bridgeT nodes threshold_adjustment then []
        else [(node_idx, peer_idx), (peer_idx, node_idx)]))

/-- remove_node (src/ips/graph_utils.rs lines 91-108): drop the removed index from the
peer lists of its neighbours, delete every node carrying the removed node's address,
then shift down every index above the removed one. -/
def remove_node (nodes : List Node) (node_idx : Nat) : List Node :=
  let node := nodes.getD node_idx default
  let step1 := node.connections.foldl
    (fun ns peer_idx =>
      ns.set peer_idx { ns.getD peer_idx default with
        connections := (ns.getD peer_idx default).connections.filter (fun x => x ≠ node_idx) })
    nodes
  let step2 := step1.filter (fun x => x.addr ≠ node.addr)
  step2.map (fun n => { n with
    connections := n.connections.map (fun c => if node_idx < c then c - 1 else c) })

/-- Directed address pairs inserted by construct_graph (src/ips/graph_utils.rs
lines 77-88): one insertion per (i, j) with j in the connections of i.  The spectre
graph is undirected and deduplicating, so its edge set is this relation viewed up to
orientation; theorems compare the full directed relation, which is finer. -/
def graphEdge (nodes : List Node) (a b : Nat) : Prop :=
  ∃ i ∈ List.range nodes.length, ∃ j ∈ (nodes.getD i default).connections,
    (nodes.getD i default).addr = a ∧ (nodes.getD j default).addr = b

instance (nodes : List Node) (a b : Nat) : Decidable (graphEdge nodes a b) := by
  unfold graphEdge; infer_instance

/-- Address pairs of the original graph with the vertex `idx` and its incident edges
excluded: the edge set the spec expects after `remove_node` (spec section 8, item 5). -/
def graphEdgeExcluding (nodes : List Node) (idx : Nat) (a b : Nat) : Prop :=
  ∃ i ∈ List.range nodes.length, ∃ j ∈ (nodes.getD i default).connections,
    i ≠ idx ∧ j ≠ idx ∧ (nodes.getD i default).addr = a ∧ (nodes.getD j default).addr = b

instance (nodes : List Node) (idx a b : Nat) : Decidable (graphEdgeExcluding nodes idx a b) := by
  unfold graphEdgeExcluding; infer_instance

/-- Connection indices all reference positions of the node vector. -/
def ConnsInRange (nodes : List Node) : Prop :=
  ∀ i ∈ List.range nodes.length, ∀ j ∈ (nodes.getD i default).connections, j < nodes.length

instance (nodes : List Node) : Decidable (ConnsInRange nodes) := by
  unfold ConnsInRange; infer_instance

/-- Undirected symmetric adjacency (spec section 3): j is listed by i iff i is listed by j. -/
def SymmetricAdj (nodes : List Node) : Prop :=
  ∀ i ∈ List.range nodes.length, ∀ j ∈ List.range nodes.length,
    (j ∈ (nodes.getD i default).connections ↔ i ∈ (nodes.getD j default).connections)

instance (nodes : List Node) : Decidable (SymmetricAdj nodes) := by
  unfold SymmetricAdj; infer_instance

/-- The original position corresponding to position i of a vector with index idx
removed: positions below idx are unchanged, the rest shift up by one. -/
def skipIdx (idx i : Nat) : Nat := if i < idx then i else i + 1

/-- IpsState (src/ips/algorithm.rs lines 52-70): nodes, degree map, eigenvalue map and
the four normalization factor pairs.  The emitted peer list (`peer_list`, an output
projection of the node addresses) is omitted: no claim mentions it and no phase reads
it back. -/
structure IpsState where
  nodes : List Node
  degrees : List (Nat × Nat)
  eigenvalues : List (Nat × ℚ)
  degree_factors : NormalizationFactors
  betweenness_factors : NormalizationFactors
  closeness_factors : NormalizationFactors
  eigenvector_factors : NormalizationFactors
  deriving Repr, Inhabited

/-- HashMap lookup (`get` followed by `expect`), modelled as association-list lookup
with a default for the cannot-happen missing case. -/
def mapGetD {α : Type} (m : List (Nat × α)) (k : Nat) (d : α) : α :=
  match m.find? (fun p => p.1 == k) with
  | some p => p.2
  | none => d

/-- find_lowest_betweenness (src/ips/graph_utils.rs lines 111-124): linear scan keeping
the index of the strictly lowest betweenness seen so far; the f64::MAX start value is
modelled as `none` (above every actual betweenness), the 0 start index literally. -/
def find_lowest_betweenness (nodes_idx : List Nat) (state : IpsState) : Nat :=
  (nodes_idx.foldl
    (fun acc idx =>
      let b := (state.nodes.getD idx default).betweenness
      match acc.1 with
      | none => (some b, idx)
      | some lowest => if b < lowest then (some b, idx) else acc)
    ((none : Option ℚ), 0)).2

/-- PeerEntry (src/ips/algorithm.rs lines 72-81): address, node index and rating. -/
structure PeerEntry where
  addr : Nat
  index : Nat
  rating : ℚ
  deriving Repr, DecidableEq, Inhabited

/-- GeoLocationMode (src/config.rs): off, or prefer closer / distant peers. -/
inductive GeoLocationMode
  | off
  | preferCloser
  | preferDistant
  deriving Repr, DecidableEq, Inhabited

/-- Multi-criteria analysis weights (src/ips/config.rs lines 7-20). -/
structure MultiCriteriaAnalysisWeights where
  location : ℚ
  degree : ℚ
  eigenvector : ℚ
  betweenness : ℚ
  closeness : ℚ
  deriving Repr, DecidableEq, Inhabited

/-- IPSConfiguration (src/ips/config.rs lines 22-44); the file-path fields drive only
logging and output emission and are omitted. -/
structure IPSConfiguration where
  geolocation : GeoLocationMode
  geolocation_minmax_distance_km : Nat
  change_at_least : Nat
  change_no_more : Nat
  bridge_threshold_adjustment : ℚ
  mcda_weights : MultiCriteriaAnalysisWeights
  deriving Repr, DecidableEq, Inhabited

/-- NORMALIZE_TO_VALUE (src/ips/algorithm.rs line 83). -/
def NORMALIZE_TO_VALUE : ℚ := 100

/-- NORMALIZE_HALF (src/ips/algorithm.rs line 84). -/
def NORMALIZE_HALF : ℚ := NORMALIZE_TO_VALUE / 2

/-- NORMALIZE_2_3 (src/ips/algorithm.rs line 85). -/
def NORMALIZE_2_3 : ℚ := NORMALIZE_TO_VALUE * 2 / 3

/-- NORMALIZE_1_3 (src/ips/algorithm.rs line 86). -/
def NORMALIZE_1_3 : ℚ := NORMALIZE_TO_VALUE * 1 / 3

/-- MASSIVE_ISLAND_PERCENTAGE (src/ips/algorithm.rs line 91); the f64 literal 0.1 is
modelled as the exact rational. -/
def MASSIVE_ISLAND_PERCENTAGE : ℚ := 1 / 10

/-- NODES_TO_BE_REMOVED_PERCENTAGE (src/ips/algorithm.rs line 92). -/
def NODES_TO_BE_REMOVED_PERCENTAGE : ℚ := 1 / 10

/-- rate_node (src/ips/algorithm.rs lines 592-623): weighted sum of the scaled degree,
betweenness, closeness and eigenvector factors. -/
def rate_node (cfg : IPSConfiguration) (node : Node) (state : IpsState) : ℚ :=
  let degree := mapGetD state.degrees node.addr 0
  let eigenvalue := mapGetD state.eigenvalues node.addr 0
  state.degree_factors.scale (degree : ℚ) * NORMALIZE_TO_VALUE * cfg.mcda_weights.degree
    + state.betweenness_factors.scale node.betweenness * NORMALIZE_TO_VALUE
      * cfg.mcda_weights.betweenness
    + state.closeness_factors.scale node.closeness * NORMALIZE_TO_VALUE
      * cfg.mcda_weights.closeness
    + state.eigenvector_factors.scale eigenvalue * NORMALIZE_TO_VALUE
      * cfg.mcda_weights.eigenvector

/-- calculate_const_factors (src/ips/algorithm.rs lines 527-539): one PeerEntry per
node, in index order. -/
def calculate_const_factors (cfg : IPSConfiguration) (state : IpsState) : List PeerEntry :=
  state.nodes.enum.map (fun p =>
    { addr := p.2.addr, index := p.1, rating := rate_node cfg p.2 state })

/-- update_rating_by_location (src/ips/algorithm.rs lines 542-590).  The great-circle
distance comes from the external geo library (not part of this repository); modelled
from the spec (section 4.6.2), it is abstracted as the function parameter dist giving
a distance in meters for two coordinate pairs. -/
def update_rating_by_location (cfg : IPSConfiguration) (dist : ℚ × ℚ → ℚ × ℚ → ℚ)
    (selected_node : Node) (nodes : List Node) (ratings : List PeerEntry) :
    List PeerEntry :=
  match selected_node.geolocation with
  | none => ratings
  | some selected_location =>
    nodes.enum.foldl (fun rs p =>
      match p.2.geolocation with
      | none => rs
      | some coordinates =>
        let d := dist selected_location coordinates
        let minmax_distance_m := (cfg.geolocation_minmax_distance_km : ℚ) * 1000
        let rating :=
          if cfg.geolocation = GeoLocationMode.preferCloser then
            if d < minmax_distance_m then NORMALIZE_TO_VALUE
            else if d < 2 * minmax_distance_m then NORMALIZE_2_3
            else if d < 3 * minmax_distance_m then NORMALIZE_1_3
            else 0
          else
            if d < 1 / 2 * minmax_distance_m then 0
            else if d < minmax_distance_m then NORMALIZE_HALF
            else NORMALIZE_TO_VALUE
        List.modify (fun e => { e with rating := e.rating + rating * cfg.mcda_weights.location })
          p.1 rs)
      ratings

/-- Drop phase of the C7 decision (src/ips/algorithm.rs lines 309-319): while the
delete quota is positive, pop the lowest-rating current peer (the list is sorted by
descending rating, so the Vec pop takes the last element); a popped peer whose edge to
the current node is recorded in bridges makes the loop continue without the quota
decrement (and without restoring the popped entry); otherwise remaining duplicates of
the popped entry are also retained away and the quota decreases.  An empty list still
decreases the quota. -/
def dropLoopGo (bridges : List (Nat × Nat)) (node_idx : Nat) :
    Nat → Nat → List PeerEntry → List PeerEntry
  | 0, _, curr => curr
  | _ + 1, 0, curr => curr
  | fuel + 1, del + 1, curr =>
    match curr.getLast? with
    | none => dropLoopGo bridges node_idx fuel del curr
    | some peer =>
      if (peer.index, node_idx) ∈ bridges then
        dropLoopGo bridges node_idx fuel (del + 1) curr.dropLast
      else
        dropLoopGo bridges node_idx fuel del (curr.dropLast.filter (fun x => x ≠ peer))

/-- Entry point for the drop loop: the quota plus the list length strictly bounds the
number of while iterations (every iteration either pops an element or decrements the
quota), so this fuel is never exhausted and the model follows the Rust loop exactly. -/
def dropLoop (bridges : List (Nat × Nat)) (node_idx : Nat) (del : Nat)
    (curr : List PeerEntry) : List PeerEntry :=
  dropLoopGo bridges node_idx (del + curr.length) del curr

/-- The delete quota of the C7 decision (src/ips/algorithm.rs lines 256-269): the
degree excess over the desired degree, or change_at_least, capped at change_no_more. -/
def peers_delete_count (cfg : IPSConfiguration) (degree desired_degree : Nat) : Nat :=
  let c := if desired_degree < degree then degree - desired_degree else cfg.change_at_least
  if cfg.change_no_more < c then cfg.change_no_more else c

/-- The add quota of the C7 decision (src/ips/algorithm.rs lines 271-284): the degree
deficit plus the delete quota, or change_at_least, capped at change_no_more. -/
def peers_add_count (cfg : IPSConfiguration) (degree desired_degree : Nat) : Nat :=
  let c :=
    if degree < desired_degree then
      desired_degree - degree + peers_delete_count cfg degree desired_degree
    else cfg.change_at_least
  if cfg.change_no_more < c then cfg.change_no_more else c

/-- One iteration of the C7 per-node decision loop (src/ips/algorithm.rs lines
225-376), transforming the final-state node list for the node at node_idx; ws is the
working state the loop reads, degree_avg / bridges / const_factors the values the
orchestrator computed before the loop. -/
def decStep (cfg : IPSConfiguration) (dist : ℚ × ℚ → ℚ × ℚ → ℚ) (ws : IpsState)
    (degree_avg : ℚ) (bridges : List (Nat × Nat)) (const_factors : List PeerEntry)
    (final : List Node) (node_idx : Nat) : List Node :=
  let node := ws.nodes.getD node_idx default
  let peer_ratings := const_factors
  let peer_ratings :=
    if cfg.geolocation ≠ GeoLocationMode.off then
      update_rating_by_location cfg dist node ws.nodes peer_ratings
    else peer_ratings
  let curr_peer_ratings :=
    (final.getD node_idx default).connections.map (fun peer => peer_ratings.getD peer default)
  let degree := mapGetD ws.degrees node.addr 0
  let desired_degree := (round degree_avg).toNat
  let peers_to_delete_count := peers_delete_count cfg degree desired_degree
  let peers_to_add_count := peers_add_count cfg degree desired_degree
  let peer_ratings := peer_ratings.filter (fun x =>
    (final.getD x.index default).connections.length
      < (ws.nodes.getD x.index default).connections.length)
  let peer_ratings := peer_ratings.filter (fun x =>
    Nat.dist (final.getD x.index default).connections.length
      (ws.nodes.getD x.index default).connections.length ≤ cfg.change_no_more)
  let peer_ratings := peer_ratings.filter (fun x => x.index ≠ node_idx)
  let curr_peer_ratings :=
    curr_peer_ratings.insertionSort (fun a b => b.rating ≤ a.rating)
  let curr_peer_ratings := dropLoop bridges node_idx peers_to_delete_count curr_peer_ratings
  if 0 < peers_to_add_count then
    let peer_ratings := peer_ratings.insertionSort (fun a b => b.rating ≤ a.rating)
    let candidates := (peer_ratings.filter (fun x =>
      node_idx ∉ (final.getD x.index default).connections ∧
      x.index ∉ (final.getD node_idx default).connections)).take (peers_to_add_count * 2)
    let candidates := candidates.insertionSort (fun a b =>
      (ws.nodes.getD a.index default).betweenness
        ≤ (ws.nodes.getD b.index default).betweenness)
    let chosen := candidates.take peers_to_add_count
    let final2 := chosen.foldl (fun f peer =>
      f.set peer.index { f.getD peer.index default with
        connections := (f.getD peer.index default).connections ++ [node_idx] }) final
    let curr_peer_ratings := curr_peer_ratings ++ chosen
    let new_connections :=
      (((curr_peer_ratings.map (fun x => x.index)).insertionSort (fun a b => a ≤ b)).dedup).filter
        (fun x => x ≠ node_idx)
    final2.set node_idx { final2.getD node_idx default with connections := new_connections }
  else final

/-- The C7 MCDA decision phase (src/ips/algorithm.rs lines 208-376): the average
degree, the bridges and the constant per-node ratings are computed on the working
state entering the phase, and the per-node loop runs over the node indices in order,
transforming the final-state node list final0. -/
def mcda_phase (cfg : IPSConfiguration) (dist : ℚ × ℚ → ℚ × ℚ → ℚ) (ws : IpsState)
    (final0 : List Node) : List Node :=
  let degree_avg := degree_centrality_avg ws.degrees
  let bridges := find_bridges ws.nodes cfg.bridge_threshold_adjustment
  let const_factors := calculate_const_factors cfg ws
  (List.range ws.nodes.length).foldl (decStep cfg dist ws degree_avg bridges const_factors) final0

/-- The decision phase as run by generate (src/ips/algorithm.rs lines 150-151,
208-376) when the security phase made no repair: the final state starts as a clone of
the working state entering the phase. -/
def ips_decision (cfg : IPSConfiguration) (dist : ℚ × ℚ → ℚ × ℚ → ℚ) (ws : IpsState) :
    List Node :=
  mcda_phase cfg dist ws ws.nodes

/-- generate_state (src/ips/algorithm.rs lines 476-524).  The spectre graph primitives
(betweenness, closeness, degree and eigenvector centrality) are an external library,
not part of this repository; modelled from the spec (section 2, C1 is consumed), their
outputs are abstracted as the parameters betw, clos (per address) and degrees,
eigenvalues (the computed maps).  When generate_full is set the betweenness and
closeness fields of every node are overwritten from the abstracted results; the four
factor pairs are determined as in the source (betweenness and closeness over the input
node slice, degree and eigenvector over the map values). -/
def generate_state (betw clos : Nat → ℚ) (degrees : List (Nat × Nat))
    (eigenvalues : List (Nat × ℚ)) (nodes : List Node) (generate_full : Bool) : IpsState :=
  let newNodes :=
    if generate_full then
      nodes.map (fun n => { n with betweenness := betw n.addr, closeness := clos n.addr })
    else nodes
  { nodes := newNodes
    degrees := degrees
    eigenvalues := eigenvalues
    degree_factors :=
      (NormalizationFactors.determine (degrees.map (fun p => (p.2 : ℚ)))).getD default
    betweenness_factors :=
      (NormalizationFactors.determine (nodes.map (fun n => n.betweenness))).getD default
    closeness_factors :=
      (NormalizationFactors.determine (nodes.map (fun n => n.closeness))).getD default
    eigenvector_factors :=
      (NormalizationFactors.determine (eigenvalues.map (fun p => p.2))).getD default }

/-- One BFS traversal of detect_islands (src/ips/algorithm.rs lines 641-655), with
explicit fuel for termination; callers pass fuel exceeding every possible number of
loop iterations (one per queue pop), so the model never exhausts it. -/
def bfsIsland (nodes : List Node) : Nat → List Nat → List Bool → List Nat × List Bool
  | 0, _, visited => ([], visited)
  | _ + 1, [], visited => ([], visited)
  | fuel + 1, node_idx :: queue, visited =>
    if visited.getD node_idx false then bfsIsland nodes fuel queue visited
    else
      let visited2 := visited.set node_idx true
      let queue2 := queue ++ (nodes.getD node_idx default).connections.filter
        (fun j => ¬ visited2.getD j false)
      let r := bfsIsland nodes fuel queue2 visited2
      (node_idx :: r.1, r.2)

/-- Fuel bound for one BFS: more than the initial queue entry plus every push the
traversal can ever make (each node is expanded at most once). -/
def bfsFuel (nodes : List Node) : Nat :=
  (nodes.map (fun n => n.connections.length)).sum + nodes.length + 1

/-- detect_islands (src/ips/algorithm.rs lines 628-659): repeated BFS from each
not-yet-visited index; each traversal yields one island. -/
def detect_islands (nodes : List Node) : List (List Nat) :=
  ((List.range nodes.length).foldl
    (fun acc i =>
      if acc.2.getD i false then acc
      else
        let r := bfsIsland nodes (bfsFuel nodes) [i] acc.2
        (acc.1 ++ [r.1], r.2))
    ([], List.replicate nodes.length false)).1

/-- The clone-and-remove probe of check_and_fix_integrity_upon_removal
(src/ips/algorithm.rs lines 415-437): sort the betweenness values descending and, for
each of the top round(0.1 * V) values, remove the first node currently carrying that
value from the (cloned) node list, recording the index at which it was found: an index
into the progressively shrunk clone. -/
def integrity_removal (state : IpsState) : List Node × List Nat :=
  let high_betweenness :=
    (state.nodes.map (fun x => x.betweenness)).insertionSort (fun a b => b ≤ a)
  let nodes_to_remove :=
    (round ((state.nodes.length : ℚ) * NODES_TO_BE_REMOVED_PERCENTAGE)).toNat
  (high_betweenness.take nodes_to_remove).foldl
    (fun p b =>
      let idx := p.1.findIdx (fun x => x.betweenness = b)
      (remove_node p.1 idx, p.2 ++ [idx]))
    (state.nodes, [])

/-- Massive-island count of check_and_fix_integrity_upon_removal (src/ips/algorithm.rs
lines 439-452): islands holding more than round(0.1 * V) of the V remaining probe
nodes, counted only when there is more than one island. -/
def massive_island_count (test_nodes : List Node) : Nat :=
  let islands := detect_islands test_nodes
  if 1 < islands.length then
    (islands.filter (fun island =>
      (round ((test_nodes.length : ℚ) * MASSIVE_ISLAND_PERCENTAGE)).toNat
        < island.length)).length
  else 0

/-- The two pushes of the C6 repair (src/ips/algorithm.rs lines 464-465): append b to
the connections of a, then a to the connections of b. -/
def push_symmetric_edge (nodes : List Node) (a b : Nat) : List Node :=
  let nodes1 := nodes.set a { nodes.getD a default with
    connections := (nodes.getD a default).connections ++ [b] }
  nodes1.set b { nodes1.getD b default with
    connections := (nodes1.getD b default).connections ++ [a] }

/-- One repair iteration of check_and_fix_integrity_upon_removal (src/ips/algorithm.rs
lines 457-466): connect the two lowest-betweenness members of the connections of the
node found at node_idx, symmetrically. -/
def repair_step (state : IpsState) (node_idx : Nat) : IpsState :=
  let conns := (state.nodes.getD node_idx default).connections
  let node_a_idx := find_lowest_betweenness conns state
  let conns2 := conns.filter (fun x => x ≠ node_a_idx)
  let node_b_idx := find_lowest_betweenness conns2 state
  { state with nodes := push_symmetric_edge state.nodes node_a_idx node_b_idx }

/-- check_and_fix_integrity_upon_removal (src/ips/algorithm.rs lines 414-471): probe
the clone, count massive islands, and on fragmentation repair the original state in
place for each recorded index (returning false); otherwise return the state unchanged
with true. -/
def check_and_fix_integrity_upon_removal (state : IpsState) : IpsState × Bool :=
  let probe := integrity_removal state
  if 1 < massive_island_count probe.1 then
    (probe.2.foldl repair_step state, false)
  else (state, true)

/-! ### Concrete states and configurations for the counterexamples and witnesses -/

/-- All-zero MCDA weights. -/
def zeroWeights : MultiCriteriaAnalysisWeights :=
  { location := 0, degree := 0, eigenvector := 0, betweenness := 0, closeness := 0 }

/-- Configuration: geolocation off, change quotas 1/1, adjustment 1, zero weights. -/
def cfgEx : IPSConfiguration :=
  { geolocation := GeoLocationMode.off
    geolocation_minmax_distance_km := 1000
    change_at_least := 1
    change_no_more := 1
    bridge_threshold_adjustment := 1
    mcda_weights := zeroWeights }

/-- Configuration for the two-clique bridge run: quotas 1/2, adjustment 5/4. -/
def cfgBridge : IPSConfiguration :=
  { cfgEx with change_no_more := 2, bridge_threshold_adjustment := 5 / 4 }

/-- Configuration whose quotas forbid any change. -/
def cfgNoChange : IPSConfiguration :=
  { cfgEx with change_at_least := 0, change_no_more := 0 }

/-- Distance function used where geolocation is off (never consulted). -/
def distZero : ℚ × ℚ → ℚ × ℚ → ℚ := fun _ _ => 0

/-- Degenerate normalization factors. -/
def nfZero : NormalizationFactors := ⟨0, 0⟩

/-- A symmetric 4-node path 0 - 1 - 2 - 3 with consistent degree map. -/
def pathStateEx : IpsState :=
  { nodes := [mkNode 0 0 [1], mkNode 1 0 [0, 2], mkNode 2 0 [1, 3], mkNode 3 0 [2]]
    degrees := [(0, 1), (1, 2), (2, 2), (3, 1)]
    eigenvalues := []
    degree_factors := nfZero
    betweenness_factors := nfZero
    closeness_factors := nfZero
    eigenvector_factors := nfZero }

/-- Two 4-cliques joined by the edge 3 - 4 (the spec S3 scenario); the joining nodes
carry high betweenness so that (3, 4) is detected as a bridge at adjustment 5/4;
each adjacency list orders the bridge peer last so it is popped first. -/
def cliqueStateEx : IpsState :=
  { nodes := [
      mkNode 0 1 [1, 2, 3], mkNode 1 1 [0, 2, 3], mkNode 2 1 [0, 1, 3],
      mkNode 3 10 [0, 1, 2, 4], mkNode 4 10 [5, 6, 7, 3],
      mkNode 5 1 [4, 6, 7], mkNode 6 1 [4, 5, 7], mkNode 7 1 [4, 5, 6]]
    degrees := [(0, 3), (1, 3), (2, 3), (3, 4), (4, 4), (5, 3), (6, 3), (7, 3)]
    eigenvalues := []
    degree_factors := nfZero
    betweenness_factors := nfZero
    closeness_factors := nfZero
    eigenvector_factors := nfZero }

/-- A state containing the post-filter self-loop 0 in the connections of node 0. -/
def selfLoopStateEx : IpsState :=
  { nodes := [mkNode 0 0 [0], mkNode 1 0 []]
    degrees := [(0, 1), (1, 0)]
    eigenvalues := []
    degree_factors := nfZero
    betweenness_factors := nfZero
    closeness_factors := nfZero
    eigenvector_factors := nfZero }

/-- Fifteen nodes: two high-betweenness hubs 0 and 1 joining a 7-node path (2..8) and
a 6-node path (9..14); removing both hubs splits the remainder into two massive
islands, and the second removal happens at clone position 0, not original position 1. -/
def integrityStateEx : IpsState :=
  { nodes := [
      mkNode 0 10 [2, 9], mkNode 1 9 [3, 10],
      mkNode 2 1 [0, 3], mkNode 3 1 [2, 4, 1], mkNode 4 1 [3, 5], mkNode 5 1 [4, 6],
      mkNode 6 1 [5, 7], mkNode 7 1 [6, 8], mkNode 8 1 [7],
      mkNode 9 1 [0, 10], mkNode 10 1 [9, 11, 1], mkNode 11 1 [10, 12],
      mkNode 12 1 [11, 13], mkNode 13 1 [12, 14], mkNode 14 1 [13]]
    degrees := []
    eigenvalues := []
    degree_factors := nfZero
    betweenness_factors := nfZero
    closeness_factors := nfZero
    eigenvector_factors := nfZero }

/-- Three nodes where two share an address: removal by address deletes both. -/
def dupAddrNodesEx : List Node :=
  [mkNode 5 0 [2], mkNode 5 0 [], mkNode 7 0 [0]]

/-- A symmetric 3-node path with pairwise distinct addresses. -/
def distinctPathNodes : List Node :=
  [mkNode 10 0 [1], mkNode 11 0 [0, 2], mkNode 12 0 [1]]

/-- A symmetric 2-node state used to exercise the security step. -/
def twoNodeStateEx : IpsState :=
  { nodes := [mkNode 20 1 [1], mkNode 21 2 [0]]
    degrees := [(20, 1), (21, 1)]
    eigenvalues := []
    degree_factors := nfZero
    betweenness_factors := nfZero
    closeness_factors := nfZero
    eigenvector_factors := nfZero }

/-! ## Basic facts about the sort used by median -/

theorem sortAsc_sorted (l : List ℚ) : (sortAsc l).Sorted (fun a b => a ≤ b) :=
  List.sorted_insertionSort _ l

theorem sortAsc_perm (l : List ℚ) : (sortAsc l).Perm l := List.perm_insertionSort _ l

/-! ## C8: normalization scale bounds -/

/-- C8: for factors with min < max, scale maps min to 0, max to 1 and every value of
the closed interval into the unit interval; for min = max, scale is constantly 0. -/
theorem scale_unit_range (f : NormalizationFactors) :
    (f.min < f.max →
      f.scale f.min = 0 ∧ f.scale f.max = 1 ∧
      ∀ x, f.min ≤ x → x ≤ f.max → 0 ≤ f.scale x ∧ f.scale x ≤ 1) ∧
    (f.min = f.max → ∀ v, f.scale v = 0) := by
  constructor
  · intro h
    have hne : f.min ≠ f.max := ne_of_lt h
    have hd : 0 < f.max - f.min := by linarith
    refine ⟨?_, ?_, ?_⟩
    · simp [NormalizationFactors.scale, hne]
    · rw [NormalizationFactors.scale, if_neg hne]
      exact div_self (ne_of_gt hd)
    · intro x h1 h2
      rw [NormalizationFactors.scale, if_neg hne]
      constructor
      · exact div_nonneg (by linarith) (le_of_lt hd)
      · rw [div_le_one hd]
        linarith
  · intro h v
    simp [NormalizationFactors.scale, h]

/-- Witness for C8 at the concrete factors (0, 1) and the midpoint 1/2. -/
theorem scale_unit_range_witness :
    (⟨0, 1⟩ : NormalizationFactors).scale 0 = 0 ∧
    (⟨0, 1⟩ : NormalizationFactors).scale 1 = 1 ∧
    0 ≤ (⟨0, 1⟩ : NormalizationFactors).scale (1 / 2) ∧
    (⟨0, 1⟩ : NormalizationFactors).scale (1 / 2) ≤ 1 := by
  have h := (scale_unit_range ⟨0, 1⟩).1 (by norm_num)
  exact ⟨h.1, h.2.1, (h.2.2 (1 / 2) (by norm_num) (by norm_num)).1,
    (h.2.2 (1 / 2) (by norm_num) (by norm_num)).2⟩

/-! ## C9: median -/

/-- C9: median of the empty series is none; for a non-empty series, median equals the
middle element of the ascending sort for odd length and the mean of the two central
elements for even length (stated for any sorted permutation of the input). -/
theorem median_sorted_middle :
    median ([] : List ℚ) = none ∧
    ∀ (l : List ℚ), l ≠ [] → ∀ s : List ℚ, s.Perm l → s.Sorted (fun a b => a ≤ b) →
      median l = some (if l.length % 2 = 0
        then (s.getD (l.length / 2 - 1) 0 + s.getD (l.length / 2) 0) / 2
        else s.getD (l.length / 2) 0) := by
  constructor
  · rfl
  · intro l hl s hperm hsorted
    have hs : s = sortAsc l := by
      refine List.eq_of_perm_of_sorted (hperm.trans (sortAsc_perm l).symm) hsorted ?_
      exact sortAsc_sorted l
    subst hs
    rw [median, if_neg hl]
    by_cases hev : l.length % 2 = 0
    · simp [hev]
    · simp [hev]

/-- Witness for C9: median of [3, 1, 2] is the middle of the sorted permutation. -/
theorem median_sorted_middle_witness : median ([3, 1, 2] : List ℚ) = some 2 := by
  have h := median_sorted_middle.2 [3, 1, 2] (by decide) [1, 2, 3] (by decide)
    (by norm_num [List.Sorted])
  simpa using h

/-! ## C10: find_lowest_betweenness on an empty slice -/

/-- C10: on an empty index slice find_lowest_betweenness returns the initial index 0,
which is not an element of the slice, rather than signalling absence. -/
theorem find_lowest_betweenness_empty (state : IpsState) :
    find_lowest_betweenness [] state = 0 ∧ 0 ∉ ([] : List Nat) :=
  ⟨rfl, by simp⟩

/-! ## C4: find_bridges characterization -/

/-- Concrete nodes for the C4 boundary: betweenness 1, 1, 2 gives median 1, so with
adjustment 1 the threshold is 1; node 0 sits exactly on the threshold. -/
def bridgeNodesEx : List Node :=
  [mkNode 0 1 [2], mkNode 1 1 [], mkNode 2 2 [0]]

/-- C4 counterexample: the edge (0, 2) is recorded as a bridge although node 0's
betweenness equals the threshold and is not strictly above it, refuting the
strict-on-both-endpoints characterization at this input. -/
theorem find_bridges_strict_cex :
    ¬ (((0, 2) ∈ find_bridges bridgeNodesEx 1) ↔
      (bridgeT bridgeNodesEx 1 < (bridgeNodesEx.getD 0 default).betweenness ∧
       bridgeT bridgeNodesEx 1 < (bridgeNodesEx.getD 2 default).betweenness)) := by
  decide

/-- C4 (amended): with fewer than 2 nodes find_bridges is empty; otherwise (u, v) is
recorded iff some directed connection (i, j) exists whose source betweenness is at
least the threshold (not strictly above) and whose target betweenness is strictly
above it, the pair being stored in both orientations. -/
theorem find_bridges_characterization (nodes : List Node) (k : ℚ) :
    (nodes.length < 2 → find_bridges nodes k = []) ∧
    ∀ u v, ((u, v) ∈ find_bridges nodes k ↔
      (2 ≤ nodes.length ∧ ∃ i ∈ List.range nodes.length,
        ∃ j ∈ (nodes.getD i default).connections,
          ¬ ((nodes.getD i default).betweenness < bridgeT nodes k) ∧
          bridgeT nodes k < (nodes.getD j default).betweenness ∧
          ((u, v) = (i, j) ∨ (u, v) = (j, i)))) := by
  constructor
  · intro h
    simp [find_bridges, h]
  · intro u v
    by_cases h2 : nodes.length < 2
    · simp only [find_bridges, if_pos h2]
      simp only [List.not_mem_nil, false_iff, not_and]
      intro hle
      omega
    · simp only [find_bridges, if_neg h2]
      rw [List.mem_flatMap]
      constructor
      · rintro ⟨i, hi, hmem⟩
        by_cases hb : (nodes.getD i default).betweenness < bridgeT nodes k
        · rw [if_pos hb] at hmem
          exact absurd hmem (List.not_mem_nil _)
        · rw [if_neg hb] at hmem
          rw [List.mem_flatMap] at hmem
          obtain ⟨j, hj, hmem⟩ := hmem
          by_cases hbj : (nodes.getD j default).betweenness ≤ bridgeT nodes k
          · rw [if_pos hbj] at hmem
            exact absurd hmem (List.not_mem_nil _)
          · rw [if_neg hbj] at hmem
            refine ⟨by omega, i, hi, j, hj, hb, lt_of_not_le hbj, ?_⟩
            simpa using hmem
      · rintro ⟨_, i, hi, j, hj, hbi, hbj, huv⟩
        refine ⟨i, hi, ?_⟩
        rw [if_neg hbi, List.mem_flatMap]
        refine ⟨j, hj, ?_⟩
        rw [if_neg (not_le_of_lt hbj)]
        rcases huv with h | h <;> simp [h]

/-- Witness for C4 (amended): the short-input branch at a single node, and the
characterization applied at the concrete boundary nodes for the pair (0, 2). -/
theorem find_bridges_characterization_witness :
    find_bridges [(default : Node)] 1 = [] ∧ (0, 2) ∈ find_bridges bridgeNodesEx 1 := by
  constructor
  · exact (find_bridges_characterization [default] 1).1 (by decide)
  · exact ((find_bridges_characterization bridgeNodesEx 1).2 0 2).2
      ⟨by decide, 0, by decide, 2, by decide, by decide, by decide, by decide⟩

/-! ## Counterexamples run through the decision and security phases -/

/-- C1 counterexample: the 4-path state is symmetric on entry, but after the C7
decision phase node 1 still lists node 0 while node 0 no longer lists node 1; the
per-node iterations do not preserve symmetric adjacency (deletions are one-sided). -/
theorem mcda_breaks_symmetry_cex :
    SymmetricAdj pathStateEx.nodes ∧
    0 ∈ ((ips_decision cfgEx distZero pathStateEx).getD 1 default).connections ∧
    1 ∉ ((ips_decision cfgEx distZero pathStateEx).getD 0 default).connections ∧
    ¬ SymmetricAdj (ips_decision cfgEx distZero pathStateEx) := by
  decide

/-- C2 failing input: on the two-clique state the edge (3, 4) is reported by
find_bridges on the working state entering the phase and the input adjacency is
symmetric, yet after the C7 decision phase neither endpoint lists the other: the
bridge edge has been removed. -/
theorem bridge_edge_removed_cex :
    (3, 4) ∈ find_bridges cliqueStateEx.nodes cfgBridge.bridge_threshold_adjustment ∧
    SymmetricAdj cliqueStateEx.nodes ∧
    4 ∉ ((ips_decision cfgBridge distZero cliqueStateEx).getD 3 default).connections ∧
    3 ∉ ((ips_decision cfgBridge distZero cliqueStateEx).getD 4 default).connections := by
  decide

/-- C3 failing input: in the drop phase for node 3 with delete quota 1 and current
peers 0, 1, 2, 4 (all ratings equal), the lowest popped peer 4 forms the recorded
bridge (4, 3); the source pops it before the bridge check and the continue skips the
quota decrement, so peer 4 is deleted anyway and a further peer (2) is deleted as
well.  Under the claim the result would have been the unchanged list. -/
theorem drop_phase_bridge_cex :
    (4, 3) ∈ find_bridges cliqueStateEx.nodes cfgBridge.bridge_threshold_adjustment ∧
    dropLoop (find_bridges cliqueStateEx.nodes cfgBridge.bridge_threshold_adjustment) 3 1
      [⟨0, 0, 0⟩, ⟨1, 1, 0⟩, ⟨2, 2, 0⟩, ⟨4, 4, 0⟩] = [⟨0, 0, 0⟩, ⟨1, 1, 0⟩] := by
  decide

/-- C7 counterexample: with both change quotas 0 the add count is 0 for every node,
the write-back never runs, and the post-filter self-loop of node 0 survives the
decision phase. -/
theorem self_loop_survives_cex :
    0 ∈ ((ips_decision cfgNoChange distZero selfLoopStateEx).getD 0 default).connections := by
  decide

/-- C6 counterexample: on the 15-node state the probe removes the two hubs (original
indices 0 and 1, whose addresses disappear from the clone), fragmentation is detected
(2 massive islands) and the repair branch runs returning false, yet the recorded list
is [0, 0]: the second entry is the position in the shrunk clone, not the original
index 1 of the second removed node. -/
theorem integrity_records_clone_positions_cex :
    (integrity_removal integrityStateEx).2 = [0, 0] ∧
    ((integrity_removal integrityStateEx).1.map (fun n => n.addr)) =
      [2, 3, 4, 5, 6, 7, 8, 9, 10, 11, 12, 13, 14] ∧
    1 < massive_island_count (integrity_removal integrityStateEx).1 ∧
    (check_and_fix_integrity_upon_removal integrityStateEx).2 = false ∧
    (integrity_removal integrityStateEx).2 ≠ [0, 1] := by
  decide

/-- C5 counterexample: with two nodes sharing an address, remove_node at index 1
deletes both carriers of that address, and the rebuilt relation contains the address
pair (7, 7) which the expected exclusion of vertex 1 does not contain. -/
theorem remove_node_dup_addr_cex :
    ConnsInRange dupAddrNodesEx ∧ SymmetricAdj dupAddrNodesEx ∧
    1 < dupAddrNodesEx.length ∧
    graphEdge (remove_node dupAddrNodesEx 1) 7 7 ∧
    ¬ graphEdgeExcluding dupAddrNodesEx 1 7 7 := by
  decide

/-! ## Generic list access helpers -/

theorem getD_set_self {α : Type} [Inhabited α] (l : List α) (i : Nat) (a : α)
    (h : i < l.length) : (l.set i a).getD i default = a := by
  rw [List.getD_eq_getElem?_getD, List.getElem?_set_self h]
  rfl

theorem getD_set_ne {α : Type} [Inhabited α] (l : List α) (i j : Nat) (a : α)
    (h : i ≠ j) : (l.set i a).getD j default = l.getD j default := by
  rw [List.getD_eq_getElem?_getD, List.getElem?_set_ne h, ← List.getD_eq_getElem?_getD]

/-! ## C7 (amended): the decision phase leaves no self-loops once quotas allow adds -/

theorem length_push_fold (chosen : List PeerEntry) (m : Nat) (final : List Node) :
    (chosen.foldl (fun f peer =>
      f.set peer.index { f.getD peer.index default with
        connections := (f.getD peer.index default).connections ++ [m] }) final).length
      = final.length := by
  induction chosen generalizing final with
  | nil => rfl
  | cons p rest ih =>
    rw [List.foldl_cons, ih, List.length_set]

theorem mem_push_fold (chosen : List PeerEntry) (m : Nat) (final : List Node)
    (j x : Nat)
    (h : x ∈ ((chosen.foldl (fun f peer =>
      f.set peer.index { f.getD peer.index default with
        connections := (f.getD peer.index default).connections ++ [m] }) final).getD j
        default).connections) :
    x ∈ ((final.getD j default).connections) ∨ x = m := by
  induction chosen generalizing final with
  | nil => exact Or.inl h
  | cons p rest ih =>
    rw [List.foldl_cons] at h
    rcases ih _ h with h1 | h1
    · by_cases hpj : p.index = j
      · subst hpj
        by_cases hlen : p.index < final.length
        · rw [getD_set_self _ _ _ hlen] at h1
          rcases List.mem_append.mp h1 with h2 | h2
          · exact Or.inl h2
          · simp only [List.mem_singleton] at h2
            exact Or.inr h2
        · rw [List.set_eq_of_length_le (by omega)] at h1
          exact Or.inl h1
      · rw [getD_set_ne _ _ _ _ hpj] at h1
        exact Or.inl h1
    · exact Or.inr h1

theorem peers_add_count_pos (cfg : IPSConfiguration) (degree desired_degree : Nat)
    (h1 : 1 ≤ cfg.change_at_least) (h2 : 1 ≤ cfg.change_no_more) :
    0 < peers_add_count cfg degree desired_degree := by
  simp only [peers_add_count, peers_delete_count]
  split_ifs <;> omega

theorem length_decStep (cfg : IPSConfiguration) (dist : ℚ × ℚ → ℚ × ℚ → ℚ)
    (ws : IpsState) (davg : ℚ) (br : List (Nat × Nat)) (cf : List PeerEntry)
    (final : List Node) (m : Nat) :
    (decStep cfg dist ws davg br cf final m).length = final.length := by
  simp only [decStep]
  by_cases hpos : 0 < peers_add_count cfg
      (mapGetD ws.degrees (ws.nodes.getD m default).addr 0) (round davg).toNat
  · rw [if_pos hpos, List.length_set, length_push_fold]
  · rw [if_neg hpos]

theorem decStep_not_self_mem (cfg : IPSConfiguration) (dist : ℚ × ℚ → ℚ × ℚ → ℚ)
    (ws : IpsState) (davg : ℚ) (br : List (Nat × Nat)) (cf : List PeerEntry)
    (final : List Node) (m : Nat)
    (h1 : 1 ≤ cfg.change_at_least) (h2 : 1 ≤ cfg.change_no_more)
    (hm : m < final.length) :
    m ∉ ((decStep cfg dist ws davg br cf final m).getD m default).connections := by
  simp only [decStep]
  rw [if_pos (peers_add_count_pos cfg _ _ h1 h2)]
  rw [getD_set_self _ _ _ (by rw [length_push_fold]; exact hm)]
  intro hmem
  simp only [List.mem_filter, decide_eq_true_eq] at hmem
  exact hmem.2 rfl

theorem decStep_conns_subset (cfg : IPSConfiguration) (dist : ℚ × ℚ → ℚ × ℚ → ℚ)
    (ws : IpsState) (davg : ℚ) (br : List (Nat × Nat)) (cf : List PeerEntry)
    (final : List Node) (m j x : Nat) (hj : j ≠ m)
    (h : x ∈ ((decStep cfg dist ws davg br cf final m).getD j default).connections) :
    x ∈ ((final.getD j default).connections) ∨ x = m := by
  revert h
  simp only [decStep]
  by_cases hpos : 0 < peers_add_count cfg
      (mapGetD ws.degrees (ws.nodes.getD m default).addr 0) (round davg).toNat
  · rw [if_pos hpos]
    intro h
    rw [getD_set_ne _ _ _ _ (fun hmj => hj hmj.symm)] at h
    exact mem_push_fold _ _ _ _ _ h
  · rw [if_neg hpos]
    intro h
    exact Or.inl h

theorem length_mcda_fold (cfg : IPSConfiguration) (dist : ℚ × ℚ → ℚ × ℚ → ℚ)
    (ws : IpsState) (davg : ℚ) (br : List (Nat × Nat)) (cf : List PeerEntry)
    (l : List Nat) (final : List Node) :
    (l.foldl (decStep cfg dist ws davg br cf) final).length = final.length := by
  induction l generalizing final with
  | nil => rfl
  | cons m rest ih =>
    rw [List.foldl_cons, ih, length_decStep]

theorem mcda_fold_no_self (cfg : IPSConfiguration) (dist : ℚ × ℚ → ℚ × ℚ → ℚ)
    (ws : IpsState) (davg : ℚ) (br : List (Nat × Nat)) (cf : List PeerEntry)
    (h1 : 1 ≤ cfg.change_at_least) (h2 : 1 ≤ cfg.change_no_more) :
    ∀ (l : List Nat) (final : List Node), (∀ n ∈ l, n < final.length) →
      ∀ i, (i ∈ l ∨ i ∉ ((final.getD i default).connections)) →
        i ∉ (((l.foldl (decStep cfg dist ws davg br cf) final).getD i default).connections) := by
  intro l
  induction l with
  | nil =>
    intro final _ i hi
    rcases hi with hi | hi
    · exact absurd hi (List.not_mem_nil i)
    · exact hi
  | cons m rest ih =>
    intro final hlen i hi
    rw [List.foldl_cons]
    apply ih (decStep cfg dist ws davg br cf final m)
    · intro n hn
      rw [length_decStep]
      exact hlen n (List.mem_cons_of_mem m hn)
    · have hmlen : m < final.length := hlen m (List.mem_cons_self m rest)
      rcases hi with hmem | hnot
      · rcases List.mem_cons.mp hmem with rfl | hmem2
        · exact Or.inr (decStep_not_self_mem cfg dist ws davg br cf final i h1 h2 hmlen)
        · exact Or.inl hmem2
      · by_cases him : i = m
        · subst him
          exact Or.inr (decStep_not_self_mem cfg dist ws davg br cf final i h1 h2 hmlen)
        · refine Or.inr (fun hc => ?_)
          rcases decStep_conns_subset cfg dist ws davg br cf final m i i him hc with h | h
          · exact hnot h
          · exact him h

/-- C7 (amended): for every input state and distance function, and every configuration
whose quotas satisfy change_at_least at least 1 and change_no_more at least 1 (so
every per-node iteration has a positive add count and runs its write-back), the
decision phase leaves no node connected to itself.  For configurations allowing a
zero add count the write-back is skipped and a pre-existing self-loop survives. -/
theorem mcda_no_self_loops (cfg : IPSConfiguration) (dist : ℚ × ℚ → ℚ × ℚ → ℚ)
    (ws : IpsState) (h1 : 1 ≤ cfg.change_at_least) (h2 : 1 ≤ cfg.change_no_more) :
    ∀ i, i ∉ ((ips_decision cfg dist ws).getD i default).connections := by
  intro i
  unfold ips_decision mcda_phase
  by_cases hi : i < ws.nodes.length
  · exact mcda_fold_no_self cfg dist ws _ _ _ h1 h2 (List.range ws.nodes.length) ws.nodes
      (fun n hn => List.mem_range.mp hn) i (Or.inl (List.mem_range.mpr hi))
  · rw [List.getD_eq_default]
    · have hconn : (default : Node).connections = [] := rfl
      rw [hconn]
      exact List.not_mem_nil i
    · rw [length_mcda_fold]
      omega

/-- Witness for C7 (amended): at the self-loop state with quotas 1 the phase output
contains no self-loop at the previously self-looped index 0 nor at index 1. -/
theorem mcda_no_self_loops_witness :
    0 ∉ ((ips_decision cfgEx distZero selfLoopStateEx).getD 0 default).connections ∧
    1 ∉ ((ips_decision cfgEx distZero selfLoopStateEx).getD 1 default).connections :=
  ⟨mcda_no_self_loops cfgEx distZero selfLoopStateEx (by decide) (by decide) 0,
   mcda_no_self_loops cfgEx distZero selfLoopStateEx (by decide) (by decide) 1⟩

/-! ## C1 (amended): the state builder and the security step preserve symmetry -/

theorem symmetricAdj_of_conns_eq {ns1 ns2 : List Node} (hlen : ns1.length = ns2.length)
    (hconns : ∀ i, (ns1.getD i default).connections = (ns2.getD i default).connections)
    (h : SymmetricAdj ns2) : SymmetricAdj ns1 := by
  intro i hi j hj
  rw [hconns i, hconns j]
  exact h i (List.mem_range.mpr (hlen ▸ List.mem_range.mp hi))
    j (List.mem_range.mpr (hlen ▸ List.mem_range.mp hj))

theorem generate_state_nodes_length (betw clos : Nat → ℚ) (degrees : List (Nat × Nat))
    (eigenvalues : List (Nat × ℚ)) (nodes : List Node) (full : Bool) :
    (generate_state betw clos degrees eigenvalues nodes full).nodes.length = nodes.length := by
  simp only [generate_state]
  split
  · exact List.length_map _ _
  · rfl

theorem generate_state_conns (betw clos : Nat → ℚ) (degrees : List (Nat × Nat))
    (eigenvalues : List (Nat × ℚ)) (nodes : List Node) (full : Bool) (i : Nat) :
    ((generate_state betw clos degrees eigenvalues nodes full).nodes.getD i
      default).connections = (nodes.getD i default).connections := by
  simp only [generate_state]
  split
  · by_cases hi : i < nodes.length
    · rw [List.getD_eq_getElem _ _ (by rw [List.length_map]; exact hi),
        List.getD_eq_getElem _ _ hi, List.getElem_map]
    · rw [List.getD_eq_default _ _ (by rw [List.length_map]; omega),
        List.getD_eq_default _ _ (by omega)]
  · rfl

theorem length_push_symmetric_edge (ns : List Node) (a b : Nat) :
    (push_symmetric_edge ns a b).length = ns.length := by
  unfold push_symmetric_edge
  rw [List.length_set, List.length_set]

theorem mem_push_symmetric_edge (ns : List Node) (a b k x : Nat) (hk : k < ns.length) :
    (x ∈ ((push_symmetric_edge ns a b).getD k default).connections ↔
      (x ∈ ((ns.getD k default).connections) ∨ (k = a ∧ x = b) ∨ (k = b ∧ x = a))) := by
  unfold push_symmetric_edge
  by_cases hkb : k = b
  · subst hkb
    rw [getD_set_self _ _ _ (by rw [List.length_set]; exact hk)]
    by_cases hab : a = k
    · subst hab
      rw [getD_set_self _ _ _ hk]
      simp only [List.mem_append, List.mem_singleton]
      tauto
    · rw [getD_set_ne _ _ _ _ hab]
      have h1 : ¬ (k = a) := fun h => hab h.symm
      simp only [List.mem_append, List.mem_singleton]
      tauto
  · rw [getD_set_ne _ _ _ _ (fun h => hkb h.symm)]
    by_cases hka : a = k
    · subst hka
      rw [getD_set_self _ _ _ hk]
      simp only [List.mem_append, List.mem_singleton]
      tauto
    · rw [getD_set_ne _ _ _ _ hka]
      have h1 : ¬ (k = a) := fun h => hka h.symm
      tauto

theorem push_symmetric_edge_symm (ns : List Node) (a b : Nat) (h : SymmetricAdj ns) :
    SymmetricAdj (push_symmetric_edge ns a b) := by
  intro i hi j hj
  rw [List.mem_range, length_push_symmetric_edge] at hi hj
  rw [mem_push_symmetric_edge ns a b i j hi, mem_push_symmetric_edge ns a b j i hj]
  have hsym := h i (List.mem_range.mpr hi) j (List.mem_range.mpr hj)
  tauto

theorem repair_step_symm (s : IpsState) (r : Nat) (h : SymmetricAdj s.nodes) :
    SymmetricAdj (repair_step s r).nodes := by
  unfold repair_step
  exact push_symmetric_edge_symm _ _ _ h

theorem repair_fold_symm (l : List Nat) (s : IpsState) (h : SymmetricAdj s.nodes) :
    SymmetricAdj ((l.foldl repair_step s).nodes) := by
  induction l generalizing s with
  | nil => exact h
  | cons r rest ih =>
    rw [List.foldl_cons]
    exact ih _ (repair_step_symm s r h)

/-- C1 (amended): the C5 state-building step preserves the adjacency lists (it copies
the nodes and overwrites only centrality fields), hence symmetric adjacency, and the
C6 security step returns a state with symmetric adjacency whenever its input had it
(each repair appends both orientations of the new edge).  The C7 per-node iterations,
by contrast, do not preserve symmetry, since peer deletions are applied only to the
iterated node's list; that part of the claim is refuted separately on a concrete
input. -/
theorem state_and_security_preserve_symmetry :
    (∀ (betw clos : Nat → ℚ) (degrees : List (Nat × Nat)) (eigenvalues : List (Nat × ℚ))
      (nodes : List Node) (full : Bool), SymmetricAdj nodes →
        SymmetricAdj (generate_state betw clos degrees eigenvalues nodes full).nodes) ∧
    (∀ state : IpsState, SymmetricAdj state.nodes →
      SymmetricAdj (check_and_fix_integrity_upon_removal state).1.nodes) := by
  constructor
  · intro betw clos degrees eigenvalues nodes full h
    exact symmetricAdj_of_conns_eq
      (generate_state_nodes_length betw clos degrees eigenvalues nodes full)
      (generate_state_conns betw clos degrees eigenvalues nodes full) h
  · intro state h
    simp only [check_and_fix_integrity_upon_removal]
    split
    · exact repair_fold_symm _ _ h
    · exact h

/-! ## C5: remove_node characterization -/

theorem length_conn_filter_fold (peers : List Nat) (idx : Nat) (ns : List Node) :
    (peers.foldl (fun ns2 peer_idx =>
      ns2.set peer_idx { ns2.getD peer_idx default with
        connections := (ns2.getD peer_idx default).connections.filter (fun x => x ≠ idx) })
      ns).length = ns.length := by
  induction peers generalizing ns with
  | nil => rfl
  | cons p rest ih => rw [List.foldl_cons, ih, List.length_set]

theorem conn_filter_fold_getD (peers : List Nat) (idx : Nat) (ns : List Node) (q : Nat)
    (hq : q < ns.length) :
    (peers.foldl (fun ns2 peer_idx =>
      ns2.set peer_idx { ns2.getD peer_idx default with
        connections := (ns2.getD peer_idx default).connections.filter (fun x => x ≠ idx) })
      ns).getD q default =
      (if q ∈ peers then
        { ns.getD q default with
          connections := (ns.getD q default).connections.filter (fun x => x ≠ idx) }
      else ns.getD q default) := by
  induction peers generalizing ns with
  | nil => simp
  | cons p rest ih =>
    rw [List.foldl_cons]
    rw [ih _ (by rw [List.length_set]; exact hq)]
    by_cases hqp : q = p
    · subst hqp
      rw [getD_set_self _ _ _ hq]
      by_cases hqrest : q ∈ rest
      · rw [if_pos hqrest, if_pos (List.mem_cons_self q rest)]
        simp [List.filter_filter]
      · rw [if_neg hqrest, if_pos (List.mem_cons_self q rest)]
    · rw [getD_set_ne _ _ _ _ (fun h => hqp h.symm)]
      by_cases hqrest : q ∈ rest
      · rw [if_pos hqrest, if_pos (List.mem_cons_of_mem p hqrest)]
      · rw [if_neg hqrest, if_neg (by simp [List.mem_cons, hqp, hqrest])]

theorem conn_filter_fold_addr (peers : List Nat) (idx : Nat) (ns : List Node) (q : Nat)
    (hq : q < ns.length) :
    ((peers.foldl (fun ns2 peer_idx =>
      ns2.set peer_idx { ns2.getD peer_idx default with
        connections := (ns2.getD peer_idx default).connections.filter (fun x => x ≠ idx) })
      ns).getD q default).addr = (ns.getD q default).addr := by
  rw [conn_filter_fold_getD _ _ _ _ hq]
  split <;> rfl

theorem step1_getD (nodes : List Node) (idx : Nat) (hidx : idx < nodes.length)
    (hsymm : SymmetricAdj nodes) (q : Nat) (hq : q < nodes.length) :
    ((nodes.getD idx default).connections.foldl (fun ns2 peer_idx =>
      ns2.set peer_idx { ns2.getD peer_idx default with
        connections := (ns2.getD peer_idx default).connections.filter (fun x => x ≠ idx) })
      nodes).getD q default =
      { nodes.getD q default with
        connections := (nodes.getD q default).connections.filter (fun x => x ≠ idx) } := by
  rw [conn_filter_fold_getD _ _ _ _ hq]
  split
  · rfl
  · next hq2 =>
    have hnm : idx ∉ (nodes.getD q default).connections := fun hmem =>
      hq2 ((hsymm idx (List.mem_range.mpr hidx) q (List.mem_range.mpr hq)).mpr hmem)
    have hfil : (nodes.getD q default).connections.filter (fun x => x ≠ idx)
        = (nodes.getD q default).connections := by
      apply List.filter_eq_self.mpr
      intro a ha
      simp only [decide_eq_true_eq]
      intro haeq
      subst haeq
      exact hnm ha
    rw [hfil]

theorem addr_ne_of_nodup (nodes : List Node)
    (haddr : (nodes.map (fun n => n.addr)).Nodup) (q r : Nat)
    (hq : q < nodes.length) (hr : r < nodes.length) (hne : q ≠ r) :
    (nodes.getD q default).addr ≠ (nodes.getD r default).addr := by
  intro heq
  rw [List.getD_eq_getElem _ _ hq, List.getD_eq_getElem _ _ hr] at heq
  have hq2 : q < (nodes.map (fun n => n.addr)).length := by
    rw [List.length_map]; exact hq
  have hr2 : r < (nodes.map (fun n => n.addr)).length := by
    rw [List.length_map]; exact hr
  have hmap : (nodes.map (fun n => n.addr))[q] = (nodes.map (fun n => n.addr))[r] := by
    rw [List.getElem_map, List.getElem_map]
    exact heq
  exact hne (haddr.getElem_inj_iff.mp hmap)

theorem filter_addr_ne_eq_eraseIdx (l : List Node) (idx : Nat) (a : Nat)
    (hidx : idx < l.length) (ha : (l.getD idx default).addr = a)
    (hne : ∀ q, q < l.length → q ≠ idx → (l.getD q default).addr ≠ a) :
    l.filter (fun x => x.addr ≠ a) = l.eraseIdx idx := by
  induction l generalizing idx with
  | nil => simp at hidx
  | cons x xs ih =>
    cases idx with
    | zero =>
      have hx : x.addr = a := ha
      rw [List.filter_cons, if_neg (by simp [hx]), List.eraseIdx_cons_zero]
      apply List.filter_eq_self.mpr
      intro b hb
      obtain ⟨n, hn, rfl⟩ := List.getElem_of_mem hb
      have h2 : ((x :: xs).getD (n + 1) default).addr ≠ a :=
        hne (n + 1) (by simp only [List.length_cons]; omega) (by omega)
      rw [List.getD_cons_succ, List.getD_eq_getElem _ _ hn] at h2
      simpa using h2
    | succ n =>
      have hx : x.addr ≠ a := by
        have h0 := hne 0 (by simp only [List.length_cons]; omega) (by omega)
        rwa [List.getD_cons_zero] at h0
      rw [List.filter_cons, if_pos (by simpa using hx), List.eraseIdx_cons_succ]
      congr 1
      refine ih n ?_ ?_ ?_
      · simp only [List.length_cons] at hidx
        omega
      · rwa [List.getD_cons_succ] at ha
      · intro q hq hqne
        have := hne (q + 1) (by simp only [List.length_cons]; omega) (by omega)
        rwa [List.getD_cons_succ] at this

theorem getD_eraseIdx {α : Type} [Inhabited α] (l : List α) (idx i : Nat)
    (hidx : idx < l.length) (hi : i < l.length - 1) :
    (l.eraseIdx idx).getD i default = l.getD (skipIdx idx i) default := by
  have hlen : (l.eraseIdx idx).length = l.length - 1 := by
    rw [List.length_eraseIdx, if_pos hidx]
  have hi2 : i < (l.eraseIdx idx).length := by omega
  rw [List.getD_eq_getElem _ _ hi2, List.getElem_eraseIdx]
  split
  · next h =>
    simp only [skipIdx]
    rw [if_pos h, List.getD_eq_getElem _ _ (by omega)]
  · next h =>
    simp only [skipIdx]
    rw [if_neg h, List.getD_eq_getElem _ _ (by omega)]

theorem remove_node_eq (nodes : List Node) (idx : Nat) (hidx : idx < nodes.length)
    (haddr : (nodes.map (fun n => n.addr)).Nodup) :
    remove_node nodes idx =
      ((((nodes.getD idx default).connections.foldl (fun ns2 peer_idx =>
        ns2.set peer_idx { ns2.getD peer_idx default with
          connections := (ns2.getD peer_idx default).connections.filter
            (fun x => x ≠ idx) }) nodes).eraseIdx idx).map (fun n =>
        { n with connections := n.connections.map (fun c => if idx < c then c - 1 else c) })) := by
  simp only [remove_node]
  congr 1
  apply filter_addr_ne_eq_eraseIdx
  · rw [length_conn_filter_fold]
    exact hidx
  · rw [conn_filter_fold_addr _ _ _ _ hidx]
  · intro q hq hqne
    rw [length_conn_filter_fold] at hq
    rw [conn_filter_fold_addr _ _ _ _ hq]
    exact addr_ne_of_nodup nodes haddr q idx hq hidx hqne

theorem remove_node_length (nodes : List Node) (idx : Nat) (hidx : idx < nodes.length)
    (haddr : (nodes.map (fun n => n.addr)).Nodup) :
    (remove_node nodes idx).length = nodes.length - 1 := by
  rw [remove_node_eq nodes idx hidx haddr, List.length_map, List.length_eraseIdx,
    length_conn_filter_fold, if_pos hidx]

theorem remove_node_getD (nodes : List Node) (idx : Nat) (hidx : idx < nodes.length)
    (hsymm : SymmetricAdj nodes) (haddr : (nodes.map (fun n => n.addr)).Nodup)
    (i : Nat) (hi : i < nodes.length - 1) :
    (remove_node nodes idx).getD i default =
      { nodes.getD (skipIdx idx i) default with
        connections := ((nodes.getD (skipIdx idx i) default).connections.filter
          (fun x => x ≠ idx)).map (fun c => if idx < c then c - 1 else c) } := by
  rw [remove_node_eq nodes idx hidx haddr]
  have hlen1 : (((nodes.getD idx default).connections.foldl (fun ns2 peer_idx =>
      ns2.set peer_idx { ns2.getD peer_idx default with
        connections := (ns2.getD peer_idx default).connections.filter
          (fun x => x ≠ idx) }) nodes)).length = nodes.length :=
    length_conn_filter_fold _ _ _
  have hlen2 : (((nodes.getD idx default).connections.foldl (fun ns2 peer_idx =>
      ns2.set peer_idx { ns2.getD peer_idx default with
        connections := (ns2.getD peer_idx default).connections.filter
          (fun x => x ≠ idx) }) nodes).eraseIdx idx).length = nodes.length - 1 := by
    rw [List.length_eraseIdx, hlen1, if_pos hidx]
  rw [List.getD_eq_getElem _ _ (by rw [List.length_map]; omega), List.getElem_map,
    ← List.getD_eq_getElem _ default (by omega : i < (((nodes.getD idx
      default).connections.foldl (fun ns2 peer_idx =>
      ns2.set peer_idx { ns2.getD peer_idx default with
        connections := (ns2.getD peer_idx default).connections.filter
          (fun x => x ≠ idx) }) nodes).eraseIdx idx).length)]
  rw [getD_eraseIdx _ _ _ (by omega) (by omega)]
  rw [step1_getD nodes idx hidx hsymm _ (by simp only [skipIdx]; split <;> omega)]

theorem skipIdx_ne (idx i : Nat) : skipIdx idx i ≠ idx := by
  simp only [skipIdx]
  split <;> omega

theorem skipIdx_lt (idx i len : Nat) (hidx : idx < len) (hi : i < len - 1) :
    skipIdx idx i < len := by
  simp only [skipIdx]
  split <;> omega

theorem remove_node_mem_iff (nodes : List Node) (idx : Nat)
    (hrange : ConnsInRange nodes) (hsymm : SymmetricAdj nodes)
    (hidx : idx < nodes.length) (haddr : (nodes.map (fun n => n.addr)).Nodup)
    (i j : Nat) (hi : i < nodes.length - 1) (_hj : j < nodes.length - 1) :
    (j ∈ ((remove_node nodes idx).getD i default).connections ↔
      skipIdx idx j ∈ (nodes.getD (skipIdx idx i) default).connections) := by
  rw [remove_node_getD nodes idx hidx hsymm haddr i hi]
  simp only [List.mem_map, List.mem_filter, decide_eq_true_eq]
  constructor
  · rintro ⟨c, ⟨hc, hcne⟩, hcj⟩
    have hclen : c < nodes.length :=
      hrange _ (List.mem_range.mpr (skipIdx_lt idx i nodes.length hidx hi)) c hc
    have hcs : c = skipIdx idx j := by
      revert hcj
      simp only [skipIdx]
      split_ifs <;> omega
    rwa [← hcs]
  · intro hmem
    refine ⟨skipIdx idx j, ⟨hmem, skipIdx_ne idx j⟩, ?_⟩
    simp only [skipIdx]
    split_ifs <;> omega

/-- C5 (amended): for every node vector with in-range connection indices, symmetric
adjacency and pairwise distinct addresses, and every valid index idx, remove_node
yields a vector that is still in-range and symmetric, and whose rebuilt edge relation
is exactly the original relation with the removed vertex and its incident edges
excluded.  Without the distinct-address hypothesis (not stated by the claim) the
conclusion fails, because deletion is by address. -/
theorem remove_node_correct (nodes : List Node) (idx : Nat)
    (hrange : ConnsInRange nodes) (hsymm : SymmetricAdj nodes)
    (hidx : idx < nodes.length) (haddr : (nodes.map (fun n => n.addr)).Nodup) :
    ConnsInRange (remove_node nodes idx) ∧ SymmetricAdj (remove_node nodes idx) ∧
    ∀ a b, (graphEdge (remove_node nodes idx) a b ↔ graphEdgeExcluding nodes idx a b) := by
  have hlen := remove_node_length nodes idx hidx haddr
  have hrange2 : ConnsInRange (remove_node nodes idx) := by
    intro i hi j hj
    rw [List.mem_range, hlen] at hi
    rw [remove_node_getD nodes idx hidx hsymm haddr i hi] at hj
    simp only [List.mem_map, List.mem_filter, decide_eq_true_eq] at hj
    obtain ⟨c, ⟨hc, hcne⟩, hcj⟩ := hj
    have hclen : c < nodes.length :=
      hrange _ (List.mem_range.mpr (skipIdx_lt idx i nodes.length hidx hi)) c hc
    rw [hlen, ← hcj]
    split <;> omega
  have hsymm2 : SymmetricAdj (remove_node nodes idx) := by
    intro i hi j hj
    rw [List.mem_range, hlen] at hi hj
    rw [remove_node_mem_iff nodes idx hrange hsymm hidx haddr i j hi hj,
      remove_node_mem_iff nodes idx hrange hsymm hidx haddr j i hj hi]
    exact hsymm (skipIdx idx i)
      (List.mem_range.mpr (skipIdx_lt idx i nodes.length hidx hi))
      (skipIdx idx j) (List.mem_range.mpr (skipIdx_lt idx j nodes.length hidx hj))
  refine ⟨hrange2, hsymm2, ?_⟩
  intro a b
  constructor
  · rintro ⟨i, hi, j, hj, hai, haj⟩
    rw [List.mem_range, hlen] at hi
    have hj2 : j < nodes.length - 1 := by
      have := hrange2 i (by rw [List.mem_range, hlen]; exact hi) j hj
      rwa [hlen] at this
    have hmem := (remove_node_mem_iff nodes idx hrange hsymm hidx haddr i j hi hj2).mp hj
    have haddri : ((remove_node nodes idx).getD i default).addr
        = (nodes.getD (skipIdx idx i) default).addr := by
      rw [remove_node_getD nodes idx hidx hsymm haddr i hi]
    have haddrj : ((remove_node nodes idx).getD j default).addr
        = (nodes.getD (skipIdx idx j) default).addr := by
      rw [remove_node_getD nodes idx hidx hsymm haddr j hj2]
    refine ⟨skipIdx idx i,
      List.mem_range.mpr (skipIdx_lt idx i nodes.length hidx hi),
      skipIdx idx j, hmem, skipIdx_ne idx i, skipIdx_ne idx j, ?_, ?_⟩
    · rw [← haddri]
      exact hai
    · rw [← haddrj]
      exact haj
  · rintro ⟨i, hi, j, hj, hine, hjne, hai, haj⟩
    rw [List.mem_range] at hi
    have hjlen : j < nodes.length := hrange i (List.mem_range.mpr hi) j hj
    obtain ⟨i2, hi2lt, hi2⟩ : ∃ i2, i2 < nodes.length - 1 ∧ skipIdx idx i2 = i := by
      by_cases hcase : i < idx
      · refine ⟨i, by omega, ?_⟩
        simp only [skipIdx]
        rw [if_pos hcase]
      · refine ⟨i - 1, by omega, ?_⟩
        simp only [skipIdx]
        rw [if_neg (by omega)]
        omega
    obtain ⟨j2, hj2lt, hj2⟩ : ∃ j2, j2 < nodes.length - 1 ∧ skipIdx idx j2 = j := by
      by_cases hcase : j < idx
      · refine ⟨j, by omega, ?_⟩
        simp only [skipIdx]
        rw [if_pos hcase]
      · refine ⟨j - 1, by omega, ?_⟩
        simp only [skipIdx]
        rw [if_neg (by omega)]
        omega
    refine ⟨i2, by rw [List.mem_range, hlen]; exact hi2lt, j2, ?_, ?_, ?_⟩
    · rw [remove_node_mem_iff nodes idx hrange hsymm hidx haddr i2 j2 hi2lt hj2lt,
        hi2, hj2]
      exact hj
    · rw [remove_node_getD nodes idx hidx hsymm haddr i2 hi2lt]
      rw [show ({ nodes.getD (skipIdx idx i2) default with
        connections := ((nodes.getD (skipIdx idx i2) default).connections.filter
          (fun x => x ≠ idx)).map
            (fun c => if idx < c then c - 1 else c) } : Node).addr
        = (nodes.getD (skipIdx idx i2) default).addr from rfl, hi2]
      exact hai
    · rw [remove_node_getD nodes idx hidx hsymm haddr j2 hj2lt]
      rw [show ({ nodes.getD (skipIdx idx j2) default with
        connections := ((nodes.getD (skipIdx idx j2) default).connections.filter
          (fun x => x ≠ idx)).map
            (fun c => if idx < c then c - 1 else c) } : Node).addr
        = (nodes.getD (skipIdx idx j2) default).addr from rfl, hj2]
      exact haj

/-- Witness for C5 (amended) at the distinct-address 3-path, removing index 1. -/
theorem remove_node_correct_witness :
    (ConnsInRange distinctPathNodes ∧ SymmetricAdj distinctPathNodes ∧
      1 < distinctPathNodes.length ∧
      (distinctPathNodes.map (fun n => n.addr)).Nodup) ∧
    (ConnsInRange (remove_node distinctPathNodes 1) ∧
      SymmetricAdj (remove_node distinctPathNodes 1) ∧
      ∀ a b, (graphEdge (remove_node distinctPathNodes 1) a b ↔
        graphEdgeExcluding distinctPathNodes 1 a b)) :=
  ⟨⟨by decide, by decide, by decide, by decide⟩,
   remove_node_correct distinctPathNodes 1 (by decide) (by decide) (by decide) (by decide)⟩

/-! ## C6: the integrity repair -/

theorem length_repair_step (s : IpsState) (r : Nat) :
    (repair_step s r).nodes.length = s.nodes.length := by
  simp only [repair_step]
  exact length_push_symmetric_edge s.nodes _ _

theorem length_repair_fold (l : List Nat) (s : IpsState) :
    ((l.foldl repair_step s).nodes.length) = s.nodes.length := by
  induction l generalizing s with
  | nil => rfl
  | cons r rest ih =>
    rw [List.foldl_cons, ih, length_repair_step]

theorem mem_push_symmetric_edge_mono (ns : List Node) (a b k x : Nat)
    (h : x ∈ ((ns.getD k default).connections)) :
    x ∈ (((push_symmetric_edge ns a b).getD k default).connections) := by
  by_cases hk : k < ns.length
  · rw [mem_push_symmetric_edge ns a b k x hk]
    exact Or.inl h
  · rw [List.getD_eq_default _ _ (by rw [length_push_symmetric_edge]; omega)]
    rwa [List.getD_eq_default _ _ (by omega)] at h

theorem mem_repair_step_mono (s : IpsState) (r k x : Nat)
    (h : x ∈ ((s.nodes.getD k default).connections)) :
    x ∈ (((repair_step s r).nodes.getD k default).connections) := by
  simp only [repair_step]
  exact mem_push_symmetric_edge_mono s.nodes _ _ k x h

theorem mem_repair_fold_mono (l : List Nat) (s : IpsState) (k x : Nat)
    (h : x ∈ ((s.nodes.getD k default).connections)) :
    x ∈ (((l.foldl repair_step s).nodes.getD k default).connections) := by
  induction l generalizing s with
  | nil => exact h
  | cons r rest ih =>
    rw [List.foldl_cons]
    exact ih _ (mem_repair_step_mono s r k x h)

theorem push_symmetric_edge_adds (ns : List Node) (a b : Nat) :
    (a < ns.length → b ∈ (((push_symmetric_edge ns a b).getD a default).connections)) ∧
    (b < ns.length → a ∈ (((push_symmetric_edge ns a b).getD b default).connections)) := by
  constructor
  · intro ha
    rw [mem_push_symmetric_edge ns a b a b ha]
    exact Or.inr (Or.inl ⟨rfl, rfl⟩)
  · intro hb
    rw [mem_push_symmetric_edge ns a b b a hb]
    exact Or.inr (Or.inr ⟨rfl, rfl⟩)

theorem repair_step_adds_edge (s : IpsState) (r : Nat) :
    (find_lowest_betweenness ((s.nodes.getD r default).connections) s < s.nodes.length →
      find_lowest_betweenness (((s.nodes.getD r default).connections).filter
          (fun x => x ≠ find_lowest_betweenness ((s.nodes.getD r default).connections) s)) s
        ∈ (((repair_step s r).nodes.getD
            (find_lowest_betweenness ((s.nodes.getD r default).connections) s)
            default).connections)) ∧
    (find_lowest_betweenness (((s.nodes.getD r default).connections).filter
        (fun x => x ≠ find_lowest_betweenness ((s.nodes.getD r default).connections) s)) s
        < s.nodes.length →
      find_lowest_betweenness ((s.nodes.getD r default).connections) s
        ∈ (((repair_step s r).nodes.getD
            (find_lowest_betweenness (((s.nodes.getD r default).connections).filter
              (fun x => x ≠ find_lowest_betweenness ((s.nodes.getD r default).connections) s))
              s) default).connections)) := by
  simp only [repair_step]
  exact push_symmetric_edge_adds s.nodes _ _

/-- C6 (amended): when the probe on the shrunk clone finds more than one massive
island, check_and_fix_integrity_upon_removal returns false, and for each position i of
the recorded index list (indices into the progressively shrunk clone, not original
indices of the unmodified state) the repair performed at that step connects a and b,
the two lowest-betweenness members (per find_lowest_betweenness) of the connections
that the recorded node carries in the state as already repaired by the earlier steps;
both orientations of that edge are still present in the returned state. -/
theorem check_and_fix_repair (state : IpsState)
    (hmass : 1 < massive_island_count (integrity_removal state).1) :
    (check_and_fix_integrity_upon_removal state).2 = false ∧
    ∀ i, i < (integrity_removal state).2.length →
      (let removed := (integrity_removal state).2
       let si := (removed.take i).foldl repair_step state
       let a := find_lowest_betweenness
         ((si.nodes.getD (removed.getD i 0) default).connections) si
       let b := find_lowest_betweenness
         (((si.nodes.getD (removed.getD i 0) default).connections).filter
           (fun x => x ≠ a)) si
       (a < state.nodes.length →
          b ∈ ((((check_and_fix_integrity_upon_removal state).1).nodes.getD a
            default).connections)) ∧
       (b < state.nodes.length →
          a ∈ ((((check_and_fix_integrity_upon_removal state).1).nodes.getD b
            default).connections))) := by
  have hfst : (check_and_fix_integrity_upon_removal state).1
      = ((integrity_removal state).2).foldl repair_step state := by
    simp only [check_and_fix_integrity_upon_removal]
    rw [if_pos hmass]
  constructor
  · simp only [check_and_fix_integrity_upon_removal]
    rw [if_pos hmass]
  · intro i hilen
    dsimp only
    rw [hfst]
    have hsplit : (integrity_removal state).2
        = ((integrity_removal state).2.take i) ++ ((integrity_removal state).2.getD i 0 ::
          ((integrity_removal state).2.drop (i + 1))) := by
      rw [List.getD_eq_getElem _ _ hilen]
      conv_lhs => rw [← List.take_append_drop i (integrity_removal state).2]
      congr 1
      exact List.drop_eq_getElem_cons hilen
    have hfold2 : ((integrity_removal state).2).foldl repair_step state
        = (((integrity_removal state).2).drop (i + 1)).foldl repair_step
            (repair_step ((((integrity_removal state).2).take i).foldl repair_step state)
              ((integrity_removal state).2.getD i 0)) := by
      conv_lhs => rw [hsplit]
      rw [List.foldl_append, List.foldl_cons]
    rw [hfold2]
    have hlen_si :
        ((((integrity_removal state).2).take i).foldl repair_step state).nodes.length
          = state.nodes.length := length_repair_fold _ _
    have hadd := repair_step_adds_edge
      ((((integrity_removal state).2).take i).foldl repair_step state)
      ((integrity_removal state).2.getD i 0)
    constructor
    · intro halt
      exact mem_repair_fold_mono _ _ _ _ (hadd.1 (by rw [hlen_si]; exact halt))
    · intro hblt
      exact mem_repair_fold_mono _ _ _ _ (hadd.2 (by rw [hlen_si]; exact hblt))

/-- Witness for C6 (amended): the fragmentation hypothesis holds at the 15-node state
and the security step returns false there. -/
theorem check_and_fix_repair_witness :
    1 < massive_island_count (integrity_removal integrityStateEx).1 ∧
    (check_and_fix_integrity_upon_removal integrityStateEx).2 = false :=
  ⟨by decide, (check_and_fix_repair integrityStateEx (by decide)).1⟩

/-- Witness for C1 (amended): both parts applied at the concrete symmetric two-node
state. -/
theorem state_and_security_preserve_symmetry_witness :
    SymmetricAdj
      (generate_state (fun _ => 0) (fun _ => 0) [] [] twoNodeStateEx.nodes true).nodes ∧
    SymmetricAdj (check_and_fix_integrity_upon_removal twoNodeStateEx).1.nodes :=
  ⟨state_and_security_preserve_symmetry.1 _ _ [] [] _ true (by decide),
   state_and_security_preserve_symmetry.2 twoNodeStateEx (by decide)⟩

end

end Crunchy
